import Mathlib

/-!
Shallow embedding of the T2S syntax decoder manager
(moses/Syntax/T2S/Manager-inl.h) together with proofs about its behaviour.

Modelling conventions:
* Scores are modelled as integers.  The decoder only ever compares scores
  (it never performs arithmetic on them), so any linearly ordered score type
  is a faithful model of the comparisons performed by the code.
* The recombination-state comparison (SVertexRecombinationOrderer, whose
  definition is outside the given sources) induces an equivalence on head
  vertices; it is modelled by a natural-number state key carried by each
  hyperedge (the key of the freshly created head SVertex of that hyperedge).
* std::size_t arithmetic is modelled as natural numbers with explicit
  wrap-around modulo 2^64 where the code can underflow.
-/

namespace MosesT2S

/-- A scored hyperedge (SHyperedge) as seen by RecombineAndSort: an identity
for the edge object, the recombination-state key of its freshly created head
SVertex, and its score. -/
structure SHyp where
  id : Nat
  key : Nat
  score : Int
deriving DecidableEq, Repr

/-- The data of one surviving head SVertex during recombination: its current
best incoming hyperedge and the list of recombined (displaced or
lower-scoring) hyperedges. -/
structure SVertexData where
  best : SHyp
  recombined : List SHyp
deriving DecidableEq, Repr

/-- One iteration of Step 1 of Manager::RecombineAndSort
(Manager-inl.h, lines 248-272) for a single buffered hyperedge:
look the head vertex up in the map keyed by recombination state; on a miss
the head vertex (whose best is the hyperedge itself) is inserted; on a hit
the hyperedge is compared against the stored vertex's best hyperedge,
either displacing it (the old best moves to the recombined list) or being
appended to the recombined list itself.  The map is modelled as an
association list keyed by the state key. -/
def insertHyp : List (Nat × SVertexData) → SHyp → List (Nat × SVertexData)
  | [], h => [(h.key, ⟨h, []⟩)]
  | (k, v) :: rest, h =>
    if h.key = k then
      if v.best.score < h.score then
        (k, ⟨h, v.recombined ++ [v.best]⟩) :: rest
      else
        (k, ⟨v.best, v.recombined ++ [h]⟩) :: rest
    else
      (k, v) :: insertHyp rest h

/-- Step 1 of Manager::RecombineAndSort: fold the buffer of scored
hyperedges into the recombination map. -/
def recombineBuffer (buffer : List SHyp) : List (Nat × SVertexData) :=
  buffer.foldl insertHyp []

/-- The stack ordering used in Step 3 of Manager::RecombineAndSort
(SVertexStackContentOrderer is outside the given sources; modelled from the
spec: vertices are sorted by descending score of each vertex's best
hyperedge). -/
def stackGE (a b : SVertexData) : Prop := b.best.score ≤ a.best.score

instance : DecidableRel stackGE :=
  fun a b => inferInstanceAs (Decidable (b.best.score ≤ a.best.score))

instance : IsTotal SVertexData stackGE :=
  ⟨fun a b => le_total b.best.score a.best.score⟩

instance : IsTrans SVertexData stackGE :=
  ⟨fun _ _ _ hab hbc => le_trans hbc hab⟩

/-- Manager::RecombineAndSort (Manager-inl.h, lines 238-283): recombine the
buffer into vertices (Step 1), copy the surviving vertices to the stack
(Step 2) and sort the stack by descending best-hyperedge score (Step 3).
std::sort is an unstable sort producing some permutation sorted by stackGE;
it is modelled by insertion sort, faithful up to tie-breaking among equal
scores. -/
def recombineAndSort (buffer : List SHyp) : List SVertexData :=
  ((recombineBuffer buffer).map Prod.snd).insertionSort stackGE

/-- The stack-pruning step of Manager::Decode (Manager-inl.h, lines
165-168): when a positive stack limit is exceeded the stack is resized
(truncated) to exactly stackLimit entries. -/
def pruneStack (stackLimit : Nat) (stack : List SVertexData) : List SVertexData :=
  if 0 < stackLimit ∧ stackLimit < stack.length then stack.take stackLimit else stack

/-- The cube-pruning pop loop of Manager::Decode (Manager-inl.h, lines
148-159).  The CubeQueue (outside the given sources) is modelled by the
stream of hyperedges it would produce, in pop order; the loop pops while
fewer than popLimit hyperedges have been produced and the queue is not
exhausted. -/
def popLoop : Nat → List SHyp → List SHyp
  | 0, _ => []
  | _ + 1, [] => []
  | n + 1, h :: rest => h :: popLoop n rest

/-- A hyperedge bundle, by identity. -/
structure Bundle where
  nodeId : Nat
deriving DecidableEq, Repr

/-- Modelled from the spec: GlueRuleSynthesizer.SynthesizeRule followed by
the glue matcher re-run (GlueRuleSynthesizer and the rule matchers are not
among the given sources) synthesizes exactly one structural rule guaranteed
to match the node, so re-running the glue matcher yields exactly one
candidate hyperedge bundle (spec section 4.5). -/
def glueRuleMatch (nodeId : Nat) : List Bundle := [⟨nodeId⟩]

/-- The bundle-collection step of Manager::Decode for one internal node
(Manager-inl.h, lines 140-144): when the rule matchers produced zero
bundles, synthesize a glue rule and re-run the glue matcher for the node. -/
def nodeBundles (matched : List Bundle) (nodeId : Nat) : List Bundle :=
  if matched.length = 0 then glueRuleMatch nodeId else matched

/-- A node of the input tree, as used by InitializeStacks: the identity of
its pvertex and its list of children (only emptiness is consulted). -/
structure InputTreeNode where
  pvertexId : Nat
  children : List Nat
deriving DecidableEq, Repr

/-- An SVertex as created by InitializeStacks: the best incoming hyperedge
pointer (null for the single vertex of a terminal node) and the node it
belongs to. -/
structure SVertexInit where
  best : Option SHyp
  pvertexId : Nat
deriving DecidableEq, Repr

/-- Score of a stack vertex: the score of its best incoming hyperedge; a
vertex with no incoming hyperedge (as created for terminals) has score 0. -/
def vertexScore (v : SVertexInit) : Int :=
  match v.best with
  | none => 0
  | some h => h.score

/-- The stack created by Manager::InitializeStacks (Manager-inl.h, lines
70-84) for one input-tree node: an empty stack, to which a single SVertex
with null best pointer is added when the node is a terminal. -/
def initStack (node : InputTreeNode) : List SVertexInit :=
  if node.children.isEmpty then [⟨none, node.pvertexId⟩] else []

/-- Manager::InitializeStacks (Manager-inl.h, lines 64-85): the stack map
after initialization, one entry per input-tree node. -/
def initStacks (nodes : List InputTreeNode) : List (Nat × List SVertexInit) :=
  nodes.map fun n => (n.pvertexId, initStack n)

/-- A derivation as seen by the distinct-k-best filter: its surface
translation (a Phrase, by identity) and its score. -/
structure Deriv where
  translation : Nat
  score : Int
deriving DecidableEq, Repr

/-- The oversampling size used by Manager::ExtractKBest in distinct mode
(Manager-inl.h, line 216). -/
def numDerivations (k nBestFactor : Nat) : Nat :=
  if nBestFactor = 0 then k * 1000 else k * nBestFactor

/-- The distinct-filter loop of Manager::ExtractKBest (Manager-inl.h, lines
224-232): scan the oversampled list while fewer than k derivations have
been kept, keeping a derivation exactly when its surface translation has
not been seen before.  The first argument is the number of slots still
free (k minus the number already kept). -/
def collectDistinct : Nat → List Deriv → Finset Nat → List Deriv
  | 0, _, _ => []
  | _ + 1, [], _ => []
  | r + 1, d :: rest, seen =>
    if d.translation ∈ seen then collectDistinct (r + 1) rest seen
    else d :: collectDistinct r rest (insert d.translation seen)

/-- Manager::ExtractKBest (Manager-inl.h, lines 183-233).  The root Result
Stack is modelled (from the spec) by the ranked stream of derivations that
KBestExtractor.Extract would lazily enumerate from it, so Extract(stack, n)
returns the first n elements of that stream; rootStack = none models a
missing stack-map entry (the code asserts), and an empty stack also
asserts. -/
def extractKBest (k sourceSize nBestFactor : Nat) (onlyDistinct : Bool)
    (rootStack : Option (List Deriv)) : Except Unit (List Deriv) :=
  if k = 0 ∨ sourceSize = 0 then Except.ok []
  else
    match rootStack with
    | none => Except.error ()
    | some derivs =>
      if derivs.isEmpty then Except.error ()
      else if onlyDistinct then
        Except.ok (collectDistinct k (derivs.take (numDerivations k nBestFactor)) ∅)
      else Except.ok (derivs.take k)

/-- The modulus of std::size_t arithmetic (64-bit). -/
def sizetW : Nat := 2 ^ 64

/-- Subtraction of std::size_t values: (a - b) with 64-bit wrap-around,
for a < 2^64. -/
def subW (a b : Nat) : Nat := (a + (sizetW - b % sizetW)) % sizetW

/-- Manager::CalcSourceSize (Manager-inl.h, lines 475-487): starting from
the head vertex's covered word count, subtract (childSize - 1) for every
tail child, in std::size_t arithmetic. -/
def calcSourceSize (headWords : Nat) (childWords : List Nat) : Nat :=
  childWords.foldl (fun ret c => subW ret (subW c 1)) headWords

example : calcSourceSize 5 [2, 3] = 2 := by decide
example : popLoop 3 [⟨0, 0, 1⟩, ⟨1, 0, 2⟩] = [⟨0, 0, 1⟩, ⟨1, 0, 2⟩] := by decide
example : numDerivations 3 0 = 3000 := by decide

/-!
Invariant of the recombination map built by Step 1 of
Manager::RecombineAndSort, relative to the prefix of the buffer processed
so far: map keys are distinct; each stored vertex carries, between its best
hyperedge and its recombined list, exactly the processed hyperedges of its
equivalence class, its best being maximal among them; and a class key is
present in the map exactly when a processed hyperedge carries it.
-/

def MapInv (processed : List SHyp) (m : List (Nat × SVertexData)) : Prop :=
  (m.map Prod.fst).Nodup ∧
  (∀ k v, (k, v) ∈ m →
     (v.best :: v.recombined).Perm (processed.filter fun x => x.key == k) ∧
     ∀ x ∈ processed, x.key = k → x.score ≤ v.best.score) ∧
  ∀ k, (∃ x ∈ processed, x.key = k) ↔ k ∈ m.map Prod.fst

lemma insertHyp_keys (m : List (Nat × SVertexData)) (h : SHyp) :
    (insertHyp m h).map Prod.fst =
      if h.key ∈ m.map Prod.fst then m.map Prod.fst
      else m.map Prod.fst ++ [h.key] := by
  induction m with
  | nil => simp [insertHyp]
  | cons kv rest ih =>
    obtain ⟨k, v⟩ := kv
    by_cases hk : h.key = k
    · subst hk
      by_cases hs : v.best.score < h.score <;> simp [insertHyp, hs]
    · by_cases hmem : h.key ∈ rest.map Prod.fst <;>
        simp [insertHyp, hk, ih, hmem, Ne.symm hk]

lemma insertHyp_mem_ne (m : List (Nat × SVertexData)) (h : SHyp)
    (k : Nat) (v : SVertexData) (hk : k ≠ h.key) :
    ((k, v) ∈ insertHyp m h) ↔ (k, v) ∈ m := by
  induction m with
  | nil => simp [insertHyp, hk]
  | cons kv rest ih =>
    obtain ⟨k0, v0⟩ := kv
    by_cases hk0 : h.key = k0
    · subst hk0
      by_cases hs : v0.best.score < h.score <;>
        simp [insertHyp, hs, Prod.ext_iff, hk]
    · simp [insertHyp, hk0, ih]

lemma insertHyp_mem_self_notin (m : List (Nat × SVertexData)) (h : SHyp)
    (hnot : h.key ∉ m.map Prod.fst) (v : SVertexData) :
    ((h.key, v) ∈ insertHyp m h) ↔ v = ⟨h, []⟩ := by
  induction m with
  | nil => simp [insertHyp]
  | cons kv rest ih =>
    obtain ⟨k0, v0⟩ := kv
    simp only [List.map_cons, List.mem_cons] at hnot
    push_neg at hnot
    have hk0 : h.key ≠ k0 := hnot.1
    have hrest : h.key ∉ rest.map Prod.fst := hnot.2
    simp [insertHyp, hk0, Prod.ext_iff, Ne.symm hk0, ih hrest]

lemma insertHyp_mem_self_in (m : List (Nat × SVertexData)) (h : SHyp)
    (w : SVertexData) (hnd : (m.map Prod.fst).Nodup)
    (hw : (h.key, w) ∈ m) (v : SVertexData) :
    ((h.key, v) ∈ insertHyp m h) ↔
      v = if w.best.score < h.score then ⟨h, w.recombined ++ [w.best]⟩
          else ⟨w.best, w.recombined ++ [h]⟩ := by
  induction m with
  | nil => simp at hw
  | cons kv rest ih =>
    obtain ⟨k0, v0⟩ := kv
    simp only [List.map_cons, List.nodup_cons] at hnd
    by_cases hk0 : h.key = k0
    · subst hk0
      have hwv0 : w = v0 := by
        rcases List.mem_cons.mp hw with heq | hmem
        · exact (Prod.ext_iff.mp heq).2
        · exact absurd (List.mem_map_of_mem Prod.fst hmem) hnd.1
      subst hwv0
      have hvrest : ∀ u : SVertexData, (h.key, u) ∉ rest := by
        intro u hu
        exact hnd.1 (List.mem_map_of_mem Prod.fst hu)
      by_cases hs : w.best.score < h.score <;>
        simp [insertHyp, hs, Prod.ext_iff, hvrest]
    · have hwrest : (h.key, w) ∈ rest := by
        rcases List.mem_cons.mp hw with heq | hmem
        · exact absurd (Prod.ext_iff.mp heq).1 hk0
        · exact hmem
      simp [insertHyp, hk0, Prod.ext_iff, Ne.symm hk0, ih hnd.2 hwrest]

lemma mapInv_insertHyp (ps : List SHyp) (m : List (Nat × SVertexData))
    (h : SHyp) (inv : MapInv ps m) : MapInv (ps ++ [h]) (insertHyp m h) := by
  obtain ⟨hnd, hent, hkeys⟩ := inv
  by_cases hmem : h.key ∈ m.map Prod.fst
  · -- the class of h is already present in the map
    obtain ⟨⟨k1, w⟩, hwmem0, hk1⟩ := List.mem_map.mp hmem
    have hk1' : k1 = h.key := hk1
    have hwmem : (h.key, w) ∈ m := by rwa [hk1'] at hwmem0
    have hwspec := hent h.key w hwmem
    refine ⟨?_, ?_, ?_⟩
    · rw [insertHyp_keys m h, if_pos hmem]; exact hnd
    · intro k v hkv
      by_cases hk : k = h.key
      · subst hk
        rw [insertHyp_mem_self_in m h w hnd hwmem v] at hkv
        have hfilter :
            ((ps ++ [h]).filter fun x => x.key == h.key) =
              (ps.filter fun x => x.key == h.key) ++ [h] := by
          simp [List.filter_append]
        by_cases hs : w.best.score < h.score
        · rw [if_pos hs] at hkv
          subst hkv
          constructor
          · show (h :: (w.recombined ++ [w.best])).Perm _
            rw [hfilter]
            exact ((List.perm_append_singleton w.best w.recombined).cons h).trans
              ((hwspec.1.cons h).trans (List.perm_append_singleton h _).symm)
          · intro x hx hxk
            rcases List.mem_append.mp hx with hxp | hxh
            · exact le_of_lt (lt_of_le_of_lt (hwspec.2 x hxp hxk) hs)
            · simp at hxh; subst hxh; exact le_refl _
        · rw [if_neg hs] at hkv
          subst hkv
          have hsle : h.score ≤ w.best.score := not_lt.mp hs
          constructor
          · show (w.best :: (w.recombined ++ [h])).Perm _
            rw [hfilter]
            have hsplit : w.best :: (w.recombined ++ [h]) =
                (w.best :: w.recombined) ++ [h] := rfl
            rw [hsplit]
            exact List.Perm.append_right [h] hwspec.1
          · intro x hx hxk
            rcases List.mem_append.mp hx with hxp | hxh
            · exact hwspec.2 x hxp hxk
            · simp at hxh; subst hxh; exact hsle
      · rw [insertHyp_mem_ne m h k v hk] at hkv
        have hold := hent k v hkv
        have hfilter :
            ((ps ++ [h]).filter fun x => x.key == k) =
              ps.filter fun x => x.key == k := by
          simp [List.filter_append, Ne.symm hk]
        constructor
        · rw [hfilter]; exact hold.1
        · intro x hx hxk
          rcases List.mem_append.mp hx with hxp | hxh
          · exact hold.2 x hxp hxk
          · simp at hxh; subst hxh; exact absurd hxk (fun he => hk he.symm)
    · intro k
      rw [insertHyp_keys m h, if_pos hmem]
      constructor
      · rintro ⟨x, hx, hxk⟩
        rcases List.mem_append.mp hx with hxp | hxh
        · exact (hkeys k).mp ⟨x, hxp, hxk⟩
        · simp at hxh; subst hxh; rw [← hxk]; exact hmem
      · intro hk
        obtain ⟨x, hx, hxk⟩ := (hkeys k).mpr hk
        exact ⟨x, List.mem_append_left _ hx, hxk⟩
  · -- h opens a new equivalence class
    have hpsnone : (ps.filter fun x => x.key == h.key) = [] := by
      rw [List.filter_eq_nil_iff]
      intro x hx
      simp only [beq_iff_eq]
      intro hxk
      exact hmem ((hkeys h.key).mp ⟨x, hx, hxk⟩)
    refine ⟨?_, ?_, ?_⟩
    · rw [insertHyp_keys m h, if_neg hmem]
      simp [List.nodup_append, hnd, hmem]
    · intro k v hkv
      by_cases hk : k = h.key
      · subst hk
        rw [insertHyp_mem_self_notin m h hmem v] at hkv
        subst hkv
        constructor
        · show ([h] : List SHyp).Perm _
          rw [List.filter_append, hpsnone]
          simp
        · intro x hx hxk
          rcases List.mem_append.mp hx with hxp | hxh
          · exact absurd ((hkeys h.key).mp ⟨x, hxp, hxk⟩) hmem
          · simp at hxh; subst hxh; exact le_refl _
      · rw [insertHyp_mem_ne m h k v hk] at hkv
        have hold := hent k v hkv
        have hfilter :
            ((ps ++ [h]).filter fun x => x.key == k) =
              ps.filter fun x => x.key == k := by
          simp [List.filter_append, Ne.symm hk]
        constructor
        · rw [hfilter]; exact hold.1
        · intro x hx hxk
          rcases List.mem_append.mp hx with hxp | hxh
          · exact hold.2 x hxp hxk
          · simp at hxh; subst hxh; exact absurd hxk (fun he => hk he.symm)
    · intro k
      rw [insertHyp_keys m h, if_neg hmem]
      constructor
      · rintro ⟨x, hx, hxk⟩
        rcases List.mem_append.mp hx with hxp | hxh
        · exact List.mem_append_left _ ((hkeys k).mp ⟨x, hxp, hxk⟩)
        · simp at hxh; subst hxh; simp [hxk]
      · intro hk
        rcases List.mem_append.mp hk with hkm | hkh
        · obtain ⟨x, hx, hxk⟩ := (hkeys k).mpr hkm
          exact ⟨x, List.mem_append_left _ hx, hxk⟩
        · simp at hkh; subst hkh; exact ⟨h, List.mem_append_right _ (by simp), rfl⟩

lemma mapInv_foldl (l ps : List SHyp) (m : List (Nat × SVertexData))
    (inv : MapInv ps m) : MapInv (ps ++ l) (l.foldl insertHyp m) := by
  induction l generalizing ps m with
  | nil => simpa using inv
  | cons h t ih =>
    have step := ih (ps ++ [h]) (insertHyp m h) (mapInv_insertHyp ps m h inv)
    simpa [List.append_assoc] using step

lemma recombineBuffer_inv (buffer : List SHyp) :
    MapInv buffer (recombineBuffer buffer) := by
  have base : MapInv [] [] := by
    refine ⟨by simp, by simp, by simp⟩
  simpa using mapInv_foldl buffer [] [] base

lemma mem_recombineAndSort {buffer : List SHyp} {v : SVertexData} :
    v ∈ recombineAndSort buffer ↔ v ∈ (recombineBuffer buffer).map Prod.snd := by
  unfold recombineAndSort
  exact (List.perm_insertionSort stackGE _).mem_iff

lemma recombineAndSort_entry {buffer : List SHyp} {v : SVertexData}
    (hv : v ∈ recombineAndSort buffer) :
    (v.best.key, v) ∈ recombineBuffer buffer ∧
    (v.best :: v.recombined).Perm (buffer.filter fun x => x.key == v.best.key) ∧
    ∀ x ∈ buffer, x.key = v.best.key → x.score ≤ v.best.score := by
  obtain ⟨⟨k, v0⟩, hkv, hv0⟩ := List.mem_map.mp (mem_recombineAndSort.mp hv)
  have hv0' : v0 = v := hv0
  subst hv0'
  obtain ⟨hnd, hent, hkeys⟩ := recombineBuffer_inv buffer
  have hspec := hent k v0 hkv
  have hb : v0.best ∈ buffer.filter fun x => x.key == k :=
    hspec.1.subset (List.mem_cons_self _ _)
  have hkey : v0.best.key = k := by simpa using List.of_mem_filter hb
  subst hkey
  exact ⟨hkv, hspec.1, hspec.2⟩

lemma mapValues_filter_len (m : List (Nat × SVertexData))
    (hnd : (m.map Prod.fst).Nodup)
    (hbk : ∀ k v, (k, v) ∈ m → v.best.key = k) (k : Nat) :
    ((m.map Prod.snd).filter fun v => v.best.key == k).length ≤ 1 := by
  induction m with
  | nil => simp
  | cons kv rest ih =>
    obtain ⟨k0, v0⟩ := kv
    simp only [List.map_cons, List.nodup_cons] at hnd
    have hbk0 : v0.best.key = k0 := hbk k0 v0 (List.mem_cons_self _ _)
    have hbkrest : ∀ k1 v1, (k1, v1) ∈ rest → v1.best.key = k1 :=
      fun k1 v1 hv1 => hbk k1 v1 (List.mem_cons_of_mem _ hv1)
    by_cases hk : k0 = k
    · subst hk
      have hrest : ((rest.map Prod.snd).filter fun v => v.best.key == k0) = [] := by
        rw [List.filter_eq_nil_iff]
        intro a ha
        obtain ⟨⟨k1, v1⟩, hv1, ha1⟩ := List.mem_map.mp ha
        have ha1' : v1 = a := ha1
        subst ha1'
        have h1 : v1.best.key = k1 := hbkrest k1 v1 hv1
        have hk1 : k1 ≠ k0 := by
          intro he
          subst he
          exact hnd.1 (List.mem_map_of_mem Prod.fst hv1)
        simp [h1, hk1]
      simp [List.filter_cons, hbk0, hrest]
    · have hne : (v0.best.key == k) = false := by simp [hbk0, hk]
      simp only [List.map_cons, List.filter_cons, hne, if_false, Bool.false_eq_true,
        cond_false]
      exact ih hnd.2 hbkrest

/-- C1: after RecombineAndSort, each recombination-state equivalence class
contributes at most one Output Vertex to the final stack; that vertex's best
field is a highest-scoring hyperedge of the class; and together the best and
the recombined list hold exactly the class's buffered hyperedges (so every
displaced or lower-scoring hyperedge of the class is in the recombined
list). -/
theorem recombineAndSort_class_unique_best (buffer : List SHyp) (k : Nat) :
    ((recombineAndSort buffer).filter fun v => v.best.key == k).length ≤ 1 ∧
    ∀ v ∈ recombineAndSort buffer, v.best.key = k →
      v.best ∈ buffer ∧
      (∀ x ∈ buffer, x.key = k → x.score ≤ v.best.score) ∧
      (v.best :: v.recombined).Perm (buffer.filter fun x => x.key == k) := by
  constructor
  · have hperm : (recombineAndSort buffer).Perm
        ((recombineBuffer buffer).map Prod.snd) :=
      List.perm_insertionSort stackGE _
    rw [(hperm.filter _).length_eq]
    obtain ⟨hnd, hent, _⟩ := recombineBuffer_inv buffer
    apply mapValues_filter_len _ hnd _ k
    intro k1 v1 hv1
    have hb : v1.best ∈ buffer.filter fun x => x.key == k1 :=
      (hent k1 v1 hv1).1.subset (List.mem_cons_self _ _)
    simpa using List.of_mem_filter hb
  · intro v hv hvk
    obtain ⟨_, hperm, hmax⟩ := recombineAndSort_entry hv
    rw [hvk] at hperm hmax
    have hb : v.best ∈ buffer.filter fun x => x.key == k :=
      hperm.subset (List.mem_cons_self _ _)
    exact ⟨List.mem_of_mem_filter hb, hmax, hperm⟩

/-- C4: after recombination and the stack-pruning step of Decode the result
stack is sorted by descending best-hyperedge score; a stack limit of 0
leaves the stack unchanged; a positive stack limit truncates the stack to
min(stackLimit, size) entries, and every dropped vertex scores no more than
every kept vertex. -/
theorem decode_stack_sorted_pruned (buffer : List SHyp) (stackLimit : Nat) :
    (pruneStack stackLimit (recombineAndSort buffer)).Pairwise stackGE ∧
    (stackLimit = 0 →
      pruneStack stackLimit (recombineAndSort buffer) = recombineAndSort buffer) ∧
    (0 < stackLimit →
      (pruneStack stackLimit (recombineAndSort buffer)).length
        = min stackLimit (recombineAndSort buffer).length ∧
      ∀ v ∈ pruneStack stackLimit (recombineAndSort buffer),
        ∀ w ∈ (recombineAndSort buffer).drop
            ((pruneStack stackLimit (recombineAndSort buffer)).length),
          w.best.score ≤ v.best.score) := by
  have hsorted : (recombineAndSort buffer).Pairwise stackGE :=
    List.sorted_insertionSort stackGE _
  have htake : ∀ n : Nat,
      pruneStack stackLimit (recombineAndSort buffer) =
        (recombineAndSort buffer).take n →
      ∀ v ∈ pruneStack stackLimit (recombineAndSort buffer),
        ∀ w ∈ (recombineAndSort buffer).drop n, w.best.score ≤ v.best.score := by
    intro n heq v hv w hw
    have hsplit := List.take_append_drop n (recombineAndSort buffer)
    rw [← hsplit] at hsorted
    have hrel := (List.pairwise_append.mp hsorted).2.2
    rw [heq] at hv
    exact hrel v hv w hw
  refine ⟨?_, ?_, ?_⟩
  · unfold pruneStack
    split
    · exact List.Pairwise.sublist (List.take_sublist _ _) hsorted
    · exact hsorted
  · intro h0
    subst h0
    simp [pruneStack]
  · intro hpos
    by_cases hlim : stackLimit < (recombineAndSort buffer).length
    · have heq : pruneStack stackLimit (recombineAndSort buffer) =
          (recombineAndSort buffer).take stackLimit := by
        unfold pruneStack
        rw [if_pos ⟨hpos, hlim⟩]
      have hlen : (pruneStack stackLimit (recombineAndSort buffer)).length
          = stackLimit := by
        rw [heq, List.length_take]
        omega
      refine ⟨by omega, ?_⟩
      rw [hlen]
      exact htake stackLimit heq
    · have heq : pruneStack stackLimit (recombineAndSort buffer) =
          recombineAndSort buffer := by
        unfold pruneStack
        rw [if_neg]
        rintro ⟨-, hcon⟩
        exact hlim hcon
      have hlen : (pruneStack stackLimit (recombineAndSort buffer)).length
          = (recombineAndSort buffer).length := by rw [heq]
      refine ⟨by omega, ?_⟩
      rw [hlen]
      apply htake
      rw [heq, List.take_length]

/-- C5: recombining any permutation of the same multiset of scored
hyperedges yields the same set of surviving equivalence classes and, for
each class, best hyperedges of equal score (the identity of the best can
differ only among hyperedges with exactly equal scores). -/
theorem recombineAndSort_order_invariant (b1 b2 : List SHyp) (hp : b1.Perm b2) :
    (∀ k, (∃ v ∈ recombineAndSort b1, v.best.key = k) ↔
          (∃ v ∈ recombineAndSort b2, v.best.key = k)) ∧
    ∀ v1 ∈ recombineAndSort b1, ∀ v2 ∈ recombineAndSort b2,
      v1.best.key = v2.best.key → v1.best.score = v2.best.score := by
  have hclass : ∀ (b : List SHyp) (k : Nat),
      (∃ v ∈ recombineAndSort b, v.best.key = k) ↔ ∃ x ∈ b, x.key = k := by
    intro b k
    constructor
    · rintro ⟨v, hv, hvk⟩
      obtain ⟨-, hperm, -⟩ := recombineAndSort_entry hv
      have hb := hperm.subset (List.mem_cons_self _ _)
      rw [hvk] at hb
      exact ⟨v.best, List.mem_of_mem_filter hb, by simpa using List.of_mem_filter hb⟩
    · rintro ⟨x, hx, hxk⟩
      obtain ⟨hnd, hent, hkeys⟩ := recombineBuffer_inv b
      have hk : k ∈ (recombineBuffer b).map Prod.fst := (hkeys k).mp ⟨x, hx, hxk⟩
      obtain ⟨⟨k1, v⟩, hv, hk1⟩ := List.mem_map.mp hk
      have hk1' : k1 = k := hk1
      have hvmem : v ∈ recombineAndSort b :=
        mem_recombineAndSort.mpr (List.mem_map_of_mem Prod.snd hv)
      have hb : v.best ∈ b.filter fun y => y.key == k1 :=
        (hent k1 v hv).1.subset (List.mem_cons_self _ _)
      have hkey : v.best.key = k1 := by simpa using List.of_mem_filter hb
      exact ⟨v, hvmem, by rw [hkey, hk1']⟩
  constructor
  · intro k
    rw [hclass b1 k, hclass b2 k]
    constructor
    · rintro ⟨x, hx, hxk⟩
      exact ⟨x, hp.mem_iff.mp hx, hxk⟩
    · rintro ⟨x, hx, hxk⟩
      exact ⟨x, hp.mem_iff.mpr hx, hxk⟩
  · intro v1 hv1 v2 hv2 hkk
    obtain ⟨-, hperm1, hmax1⟩ := recombineAndSort_entry hv1
    obtain ⟨-, hperm2, hmax2⟩ := recombineAndSort_entry hv2
    have hb1 : v1.best ∈ b1 :=
      List.mem_of_mem_filter (hperm1.subset (List.mem_cons_self _ _))
    have hb2 : v2.best ∈ b2 :=
      List.mem_of_mem_filter (hperm2.subset (List.mem_cons_self _ _))
    have h12 : v1.best.score ≤ v2.best.score :=
      hmax2 v1.best (hp.mem_iff.mp hb1) hkk
    have h21 : v2.best.score ≤ v1.best.score :=
      hmax1 v2.best (hp.mem_iff.mpr hb2) hkk.symm
    exact le_antisymm h12 h21

/-- A demonstration buffer with two hyperedges in class 1 and one in
class 2, used to instantiate the recombination theorems. -/
def dBuf : List SHyp := [⟨0, 1, 5⟩, ⟨1, 1, 7⟩, ⟨2, 2, 3⟩]

/-- A permutation of dBuf. -/
def dBuf2 : List SHyp := [⟨1, 1, 7⟩, ⟨2, 2, 3⟩, ⟨0, 1, 5⟩]

/-- The surviving vertex of class 1 for dBuf. -/
def dVert : SVertexData := ⟨⟨1, 1, 7⟩, [⟨0, 1, 5⟩]⟩

/-- Witness instantiating the C1 theorem on the concrete buffer dBuf. -/
theorem recombineAndSort_class_unique_best_witness :
    ((recombineAndSort dBuf).filter fun v => v.best.key == 1).length ≤ 1 ∧
    (dVert.best ∈ dBuf ∧
     (∀ x ∈ dBuf, x.key = 1 → x.score ≤ dVert.best.score) ∧
     (dVert.best :: dVert.recombined).Perm (dBuf.filter fun x => x.key == 1)) :=
  ⟨(recombineAndSort_class_unique_best dBuf 1).1,
   (recombineAndSort_class_unique_best dBuf 1).2 dVert (by decide) (by decide)⟩

/-- Witness instantiating the C4 theorem on dBuf with stack limit 1. -/
theorem decode_stack_sorted_pruned_witness :
    (pruneStack 1 (recombineAndSort dBuf)).length
      = min 1 (recombineAndSort dBuf).length ∧
    ∀ v ∈ pruneStack 1 (recombineAndSort dBuf),
      ∀ w ∈ (recombineAndSort dBuf).drop
          (pruneStack 1 (recombineAndSort dBuf)).length,
        w.best.score ≤ v.best.score :=
  (decode_stack_sorted_pruned dBuf 1).2.2 (by decide)

/-- Witness instantiating the C5 theorem on dBuf and its permutation. -/
theorem recombineAndSort_order_invariant_witness :
    (∀ k, (∃ v ∈ recombineAndSort dBuf, v.best.key = k) ↔
          (∃ v ∈ recombineAndSort dBuf2, v.best.key = k)) ∧
    ∀ v1 ∈ recombineAndSort dBuf, ∀ v2 ∈ recombineAndSort dBuf2,
      v1.best.key = v2.best.key → v1.best.score = v2.best.score :=
  recombineAndSort_order_invariant dBuf dBuf2 (by decide)

lemma popLoop_eq_take : ∀ (n : Nat) (q : List SHyp), popLoop n q = q.take n
  | 0, _ => rfl
  | _ + 1, [] => rfl
  | n + 1, h :: rest => by
    simp only [popLoop, List.take_succ_cons]
    rw [popLoop_eq_take n rest]

/-- C6: for each node the cube-pruning pop loop pops exactly
min(popLimit, producible hyperedges) scored hyperedges into the buffer,
namely the first ones of the queue's stream, stopping as soon as popLimit
is reached or the queue is exhausted. -/
theorem popLoop_count (popLimit : Nat) (queue : List SHyp) :
    popLoop popLimit queue = queue.take popLimit ∧
    (popLoop popLimit queue).length = min popLimit queue.length := by
  constructor
  · exact popLoop_eq_take popLimit queue
  · rw [popLoop_eq_take popLimit queue]
    exact List.length_take _ _

/-- C3: when the rule matchers produce zero bundles for an internal node,
the glue-rule synthesizer and the glue matcher run for that node and leave
it with exactly one bundle; in every case the node ends with at least one
bundle, so decoding never fails for lack of grammar coverage. -/
theorem nodeBundles_glue_total (matched : List Bundle) (nodeId : Nat) :
    (matched = [] → (nodeBundles matched nodeId).length = 1) ∧
    nodeBundles matched nodeId ≠ [] := by
  constructor
  · intro h
    subst h
    simp [nodeBundles, glueRuleMatch]
  · unfold nodeBundles
    split
    · simp [glueRuleMatch]
    · rename_i h
      intro hcon
      exact h (by simp [hcon])

/-- Witness instantiating the C3 theorem at an empty match list. -/
theorem nodeBundles_glue_total_witness :
    (nodeBundles [] 5).length = 1 ∧ nodeBundles [] 5 ≠ [] :=
  ⟨(nodeBundles_glue_total [] 5).1 rfl, (nodeBundles_glue_total [] 5).2⟩

/-- C9: after stack initialization, the stack of every terminal (childless)
node holds exactly one vertex, which has no incoming hyperedge and score 0,
and the stack of every node with children is empty. -/
theorem initStacks_terminal (nodes : List InputTreeNode) (node : InputTreeNode)
    (hmem : node ∈ nodes) :
    ∃ stack, (node.pvertexId, stack) ∈ initStacks nodes ∧
      (node.children = [] →
        stack.length = 1 ∧ ∀ v ∈ stack, v.best = none ∧ vertexScore v = 0) ∧
      (node.children ≠ [] → stack = []) := by
  refine ⟨initStack node, ?_, ?_, ?_⟩
  · exact List.mem_map_of_mem _ hmem
  · intro hterm
    simp [initStack, hterm, vertexScore]
  · intro hint
    have hne : node.children.isEmpty = false := by
      cases hchild : node.children with
      | nil => exact absurd hchild hint
      | cons a l => simp
    simp [initStack, hne]

/-- A terminal node used in the C9 witness. -/
def dLeaf : InputTreeNode := ⟨0, []⟩

/-- An internal node used in the C9 witness. -/
def dRoot : InputTreeNode := ⟨1, [0]⟩

/-- The node list of the C9 witness tree. -/
def dNodes : List InputTreeNode := [dLeaf, dRoot]

/-- Witness instantiating the C9 theorem at a concrete two-node tree. -/
theorem initStacks_terminal_witness :
    ∃ stack, (dLeaf.pvertexId, stack) ∈ initStacks dNodes ∧
      (dLeaf.children = [] →
        stack.length = 1 ∧ ∀ v ∈ stack, v.best = none ∧ vertexScore v = 0) ∧
      (dLeaf.children ≠ [] → stack = []) :=
  initStacks_terminal dNodes dLeaf (by decide)

/-- C10: with k = 0 or an empty source sentence, ExtractKBest returns the
cleared (empty) k-best list without consulting the root stack: the result
is ok-empty even when the root stack entry is absent. -/
theorem extractKBest_zero (k sourceSize nBestFactor : Nat) (onlyDistinct : Bool)
    (rootStack : Option (List Deriv)) (h : k = 0 ∨ sourceSize = 0) :
    extractKBest k sourceSize nBestFactor onlyDistinct rootStack
      = Except.ok [] := by
  unfold extractKBest
  rw [if_pos h]

/-- Witness instantiating the C10 theorem at k = 0 with a missing root
stack. -/
theorem extractKBest_zero_witness :
    ((0 : Nat) = 0 ∨ (3 : Nat) = 0) ∧
    extractKBest 0 3 0 true none = Except.ok [] :=
  ⟨Or.inl rfl, extractKBest_zero 0 3 0 true none (Or.inl rfl)⟩

lemma subW_of_le {a b : Nat} (hb : b ≤ a) (ha : a < sizetW) : subW a b = a - b := by
  unfold subW
  have hbW : b < sizetW := lt_of_le_of_lt hb ha
  rw [Nat.mod_eq_of_lt hbW]
  have h1 : a + (sizetW - b) = (a - b) + sizetW := by omega
  rw [h1, Nat.add_mod_right]
  exact Nat.mod_eq_of_lt (by omega)

lemma subW_one {c : Nat} (hc : 1 ≤ c) (hcW : c ≤ sizetW) : subW c 1 = c - 1 := by
  unfold subW
  have h0 : (1 : Nat) < sizetW := by norm_num [sizetW]
  have h1 : (1 : Nat) % sizetW = 1 := Nat.mod_eq_of_lt h0
  rw [h1]
  have h2 : c + (sizetW - 1) = (c - 1) + sizetW := by omega
  rw [h2, Nat.add_mod_right]
  exact Nat.mod_eq_of_lt (by omega)

/-- C7: when every tail child covers at least one word and the total
reduction does not underflow, CalcSourceSize returns the head vertex's
covered word count minus the sum over tail children of (child covered
count - 1). -/
theorem calcSourceSize_spec (headWords : Nat) (childWords : List Nat)
    (hhead : headWords < sizetW)
    (hpos : ∀ c ∈ childWords, 1 ≤ c)
    (hsum : (childWords.map fun c => c - 1).sum ≤ headWords) :
    calcSourceSize headWords childWords
      = headWords - (childWords.map fun c => c - 1).sum := by
  induction childWords generalizing headWords with
  | nil => simp [calcSourceSize]
  | cons c rest ih =>
    simp only [List.map_cons, List.sum_cons] at hsum ⊢
    have hc : 1 ≤ c := hpos c (List.mem_cons_self _ _)
    have hc1 : c - 1 ≤ headWords := by omega
    have hcW : c ≤ sizetW := by omega
    have hstep : subW c 1 = c - 1 := subW_one hc hcW
    have hstep2 : subW headWords (c - 1) = headWords - (c - 1) :=
      subW_of_le hc1 hhead
    have hrec := ih (headWords - (c - 1)) (by omega)
      (fun x hx => hpos x (List.mem_cons_of_mem _ hx)) (by omega)
    unfold calcSourceSize
    simp only [List.foldl_cons]
    rw [hstep, hstep2]
    rw [show List.foldl (fun ret c => subW ret (subW c 1)) (headWords - (c - 1)) rest
          = calcSourceSize (headWords - (c - 1)) rest from rfl]
    rw [hrec]
    omega

lemma collectDistinct_length (l : List Deriv) : ∀ (r : Nat) (seen : Finset Nat),
    (collectDistinct r l seen).length
      = min r (((l.map Deriv.translation).toFinset \ seen).card) := by
  induction l with
  | nil => intro r seen; cases r <;> simp [collectDistinct]
  | cons d rest ih =>
    intro r seen
    cases r with
    | zero => simp [collectDistinct]
    | succ n =>
      by_cases hd : d.translation ∈ seen
      · simp only [collectDistinct, if_pos hd]
        rw [ih (n + 1) seen]
        have hset : ((d :: rest).map Deriv.translation).toFinset \ seen
            = (rest.map Deriv.translation).toFinset \ seen := by
          ext a
          by_cases ha : a = d.translation <;> simp [ha, hd]
        rw [hset]
      · simp only [collectDistinct, if_neg hd, List.length_cons]
        rw [ih n (insert d.translation seen)]
        have hnotmem : d.translation ∉
            (rest.map Deriv.translation).toFinset \ insert d.translation seen := by
          simp
        have hset : ((d :: rest).map Deriv.translation).toFinset \ seen
            = insert d.translation
                ((rest.map Deriv.translation).toFinset \ insert d.translation seen) := by
          ext a
          by_cases ha : a = d.translation <;> simp [ha, hd]
        rw [hset, Finset.card_insert_of_not_mem hnotmem]
        omega

lemma collectDistinct_fresh (l : List Deriv) : ∀ (r : Nat) (seen : Finset Nat),
    (∀ d ∈ collectDistinct r l seen, d.translation ∉ seen) ∧
    ((collectDistinct r l seen).map Deriv.translation).Nodup := by
  induction l with
  | nil => intro r seen; cases r <;> simp [collectDistinct]
  | cons x rest ih =>
    intro r seen
    cases r with
    | zero => simp [collectDistinct]
    | succ n =>
      by_cases hx : x.translation ∈ seen
      · simp only [collectDistinct, if_pos hx]
        exact ih (n + 1) seen
      · simp only [collectDistinct, if_neg hx]
        obtain ⟨hfresh, hnodup⟩ := ih n (insert x.translation seen)
        constructor
        · intro d hd
          rcases List.mem_cons.mp hd with heq | hd2
          · subst heq; exact hx
          · exact fun hc => hfresh d hd2 (Finset.mem_insert_of_mem hc)
        · simp only [List.map_cons, List.nodup_cons]
          constructor
          · intro hc
            obtain ⟨d, hd, hdt⟩ := List.mem_map.mp hc
            apply hfresh d hd
            rw [hdt]
            exact Finset.mem_insert_self _ _
          · exact hnodup

lemma collectDistinct_sublist (l : List Deriv) : ∀ (r : Nat) (seen : Finset Nat),
    (collectDistinct r l seen).Sublist l := by
  induction l with
  | nil => intro r seen; cases r <;> simp [collectDistinct]
  | cons x rest ih =>
    intro r seen
    cases r with
    | zero => simp [collectDistinct]
    | succ n =>
      by_cases hx : x.translation ∈ seen
      · simp only [collectDistinct, if_pos hx]
        exact List.Sublist.cons x (ih (n + 1) seen)
      · simp only [collectDistinct, if_neg hx]
        exact List.Sublist.cons₂ x (ih n (insert x.translation seen))

lemma collectDistinct_find (l : List Deriv) : ∀ (r : Nat) (seen : Finset Nat),
    ∀ d ∈ collectDistinct r l seen,
      d.translation ∉ seen ∧
      l.find? (fun x => x.translation == d.translation) = some d := by
  induction l with
  | nil => intro r seen; cases r <;> simp [collectDistinct]
  | cons x rest ih =>
    intro r seen
    cases r with
    | zero => simp [collectDistinct]
    | succ n =>
      by_cases hx : x.translation ∈ seen
      · simp only [collectDistinct, if_pos hx]
        intro d hd
        obtain ⟨hns, hfind⟩ := ih (n + 1) seen d hd
        refine ⟨hns, ?_⟩
        have hne : ¬((fun y => y.translation == d.translation) x = true) := by
          simp only [beq_iff_eq]
          intro he
          exact hns (he ▸ hx)
        rw [@List.find?_cons_of_neg _ (fun y => y.translation == d.translation)
          x rest hne]
        exact hfind
      · simp only [collectDistinct, if_neg hx]
        intro d hd
        rcases List.mem_cons.mp hd with heq | hd2
        · subst heq
          refine ⟨hx, ?_⟩
          rw [List.find?_cons_of_pos _ (by simp)]
        · obtain ⟨hns, hfind⟩ := ih n (insert x.translation seen) d hd2
          have hdx : d.translation ≠ x.translation := fun he =>
            hns (by rw [he]; exact Finset.mem_insert_self _ _)
          refine ⟨fun hc => hns (Finset.mem_insert_of_mem hc), ?_⟩
          have hne2 : ¬((fun y => y.translation == d.translation) x = true) := by
            simp only [beq_iff_eq]
            exact Ne.symm hdx
          rw [@List.find?_cons_of_neg _ (fun y => y.translation == d.translation)
            x rest hne2]
          exact hfind

/-- C2: in distinct mode, ExtractKBest extracts
numDerivations = k*1000 (when nBestFactor is 0) or k*nBestFactor
derivations, then scans them in order keeping only the first occurrence of
each distinct surface translation, stopping once k distinct derivations are
collected or the oversampled list is exhausted: the result has
min(k, number of distinct translations in the oversampled list) entries
(possibly fewer than k), pairwise distinct translations, and each entry is
the first derivation of its translation in the oversampled list. -/
theorem extractKBest_distinct_spec (k sourceSize nBestFactor : Nat)
    (derivs : List Deriv) (hk : k ≠ 0) (hss : sourceSize ≠ 0) (hne : derivs ≠ []) :
    numDerivations k nBestFactor
      = (if nBestFactor = 0 then k * 1000 else k * nBestFactor) ∧
    extractKBest k sourceSize nBestFactor true (some derivs)
      = Except.ok (collectDistinct k (derivs.take (numDerivations k nBestFactor)) ∅) ∧
    ((collectDistinct k (derivs.take (numDerivations k nBestFactor)) ∅).length
      = min k ((derivs.take (numDerivations k nBestFactor)).map
          Deriv.translation).toFinset.card) ∧
    ((collectDistinct k (derivs.take (numDerivations k nBestFactor)) ∅).map
        Deriv.translation).Nodup ∧
    ((collectDistinct k (derivs.take (numDerivations k nBestFactor)) ∅).Sublist
      (derivs.take (numDerivations k nBestFactor))) ∧
    ∀ d ∈ collectDistinct k (derivs.take (numDerivations k nBestFactor)) ∅,
      (derivs.take (numDerivations k nBestFactor)).find?
        (fun x => x.translation == d.translation) = some d := by
  refine ⟨rfl, ?_, ?_, ?_, ?_, ?_⟩
  · simp [extractKBest, hk, hss, hne]
  · rw [collectDistinct_length]
    simp
  · exact (collectDistinct_fresh _ k ∅).2
  · exact collectDistinct_sublist _ k ∅
  · intro d hd
    exact (collectDistinct_find _ k ∅ d hd).2

/-- Five ranked derivations with a duplicate surface translation among the
top three, matching the distinct-extraction scenario of the spec. -/
def dDerivs : List Deriv := [⟨10, 9⟩, ⟨11, 8⟩, ⟨10, 7⟩, ⟨12, 6⟩, ⟨13, 5⟩]

example : collectDistinct 3 dDerivs ∅ = [⟨10, 9⟩, ⟨11, 8⟩, ⟨12, 6⟩] := by decide

/-- Witness instantiating the C2 theorem at k = 3, unlimited factor, on
dDerivs. -/
theorem extractKBest_distinct_spec_witness :
    numDerivations 3 0 = (if (0 : Nat) = 0 then 3 * 1000 else 3 * 0) ∧
    extractKBest 3 1 0 true (some dDerivs)
      = Except.ok (collectDistinct 3 (dDerivs.take (numDerivations 3 0)) ∅) ∧
    ((collectDistinct 3 (dDerivs.take (numDerivations 3 0)) ∅).length
      = min 3 ((dDerivs.take (numDerivations 3 0)).map
          Deriv.translation).toFinset.card) ∧
    ((collectDistinct 3 (dDerivs.take (numDerivations 3 0)) ∅).map
        Deriv.translation).Nodup ∧
    ((collectDistinct 3 (dDerivs.take (numDerivations 3 0)) ∅).Sublist
      (dDerivs.take (numDerivations 3 0))) ∧
    ∀ d ∈ collectDistinct 3 (dDerivs.take (numDerivations 3 0)) ∅,
      (dDerivs.take (numDerivations 3 0)).find?
        (fun x => x.translation == d.translation) = some d :=
  extractKBest_distinct_spec 3 1 0 dDerivs (by decide) (by decide) (by decide)

/-- Witness instantiating the C7 theorem at head count 3, children 2 and
2. -/
theorem calcSourceSize_spec_witness :
    (3 : Nat) < sizetW ∧ (∀ c ∈ [2, 2], (1 : Nat) ≤ c) ∧
    (([2, 2].map fun c => c - 1).sum ≤ (3 : Nat)) ∧
    calcSourceSize 3 [2, 2] = 3 - (([2, 2].map fun c => c - 1).sum) :=
  ⟨by decide, by decide, by decide,
   calcSourceSize_spec 3 [2, 2] (by decide) (by decide) (by decide)⟩

/-- A target-side word of a translation rule: a terminal (with a word
identity) or a non-terminal. -/
inductive TWord where
  | term (w : Nat)
  | nonterm
deriving DecidableEq, Repr

/-- The data of a rule's target phrase consulted by OutputAlignmentNBest:
its target words, the non-terminal alignment maps of AlignmentInfo
(source index to source position; target position to source index), and
the terminal alignment points (source position, target position) relative
to the rule. -/
structure Rule where
  twords : List TWord
  srcInd2pos : List Nat
  tgtPos2srcInd : List Nat
  alignTerm : List (Nat × Nat)
deriving DecidableEq, Repr

/-- A derivation as consumed by OutputAlignmentNBest: the rule of its
edge, the start position and covered word count of its head vertex's span,
the covered word counts of its tail vertices, and its sub-derivations. -/
inductive DTree where
  | node (rule : Rule) (headStart headWords : Nat) (tailWords : List Nat)
      (subs : List DTree)

/-- The rule of a derivation node. -/
def DTree.rule : DTree → Rule
  | .node r _ _ _ _ => r

/-- The head span start position of a derivation node. -/
def DTree.headStart : DTree → Nat
  | .node _ s _ _ _ => s

/-- The head span covered word count of a derivation node. -/
def DTree.headWords : DTree → Nat
  | .node _ _ w _ _ => w

/-- The tail covered word counts of a derivation node. -/
def DTree.tailWords : DTree → List Nat
  | .node _ _ _ t _ => t

/-- The sub-derivations of a derivation node. -/
def DTree.subs : DTree → List DTree
  | .node _ _ _ _ s => s

/-- Modelled from the spec: BaseManager::ShiftOffsets (not among the given
sources) converts the vector of per-position sizes (0 for terminal
positions) into absolute positions starting at the given offset: a zero
entry becomes the current position, which then advances by one; a non-zero
entry n advances the current position by n and becomes that position minus
one. -/
def shiftOffsets (start : Nat) : List Nat → List Nat
  | [] => []
  | n :: rest =>
    if n = 0 then start :: shiftOffsets (start + 1) rest
    else (start + n - 1) :: shiftOffsets (start + n) rest

/-- Sequential insertion of alignment points into the result set
(retAlign.insert in the source): fails on the first point already
present. -/
def insertPoints : List (Nat × Nat) → Finset (Nat × Nat) →
    Except Unit (Finset (Nat × Nat))
  | [], s => Except.ok s
  | p :: rest, s =>
    if p ∈ s then Except.error () else insertPoints rest (insert p s)

mutual

/-- Manager::OutputAlignmentNBest (Manager-inl.h, lines 394-473): collect
the absolute alignment points of a derivation into the threaded set and
return the total target length.  Errors model UTIL_THROW_IF2 (non-terminal
count mismatch at entry, a target position outside the non-terminal index
map, a duplicate alignment point); an out-of-range sub-derivation index,
undefined behaviour in C++, is modelled as an error as well. -/
def oanb : DTree → Nat → Finset (Nat × Nat) → Except Unit (Finset (Nat × Nat) × Nat)
  | DTree.node rule hs hw tw subs, startTarget, ret =>
    if rule.srcInd2pos.length ≠ subs.length then Except.error ()
    else
      match oanbLoop rule subs rule.twords 0 startTarget 0
          (List.replicate (calcSourceSize hw tw) 0)
          (List.replicate rule.twords.length 0) ret with
      | Except.error e => Except.error e
      | Except.ok (total, srcOff, tgtOff, ret2) =>
        match insertPoints (rule.alignTerm.map fun pr =>
            ((shiftOffsets hs srcOff).getD pr.1 0,
             (shiftOffsets startTarget tgtOff).getD pr.2 0)) ret2 with
        | Except.error e => Except.error e
        | Except.ok ret3 => Except.ok (ret3, total)
termination_by d st ret => (sizeOf d, 0)
decreasing_by
  apply Prod.Lex.left
  simp only [DTree.node.sizeOf_spec]
  omega

/-- The target-position loop of OutputAlignmentNBest (lines 421-448):
advance over the rule's target words, counting one target position per
terminal and recursing into the sub-derivation selected by the
non-terminal index maps, recording sub-derivation source sizes and target
sizes in the offset vectors. -/
def oanbLoop : Rule → List DTree → List TWord → Nat → Nat → Nat →
    List Nat → List Nat → Finset (Nat × Nat) →
    Except Unit (Nat × List Nat × List Nat × Finset (Nat × Nat))
  | _, _, [], _, _, total, srcOff, tgtOff, ret =>
    Except.ok (total, srcOff, tgtOff, ret)
  | rule, subs, TWord.term _ :: rest, targetPos, startTarget, total, srcOff, tgtOff, ret =>
    oanbLoop rule subs rest (targetPos + 1) startTarget (total + 1) srcOff tgtOff ret
  | rule, subs, TWord.nonterm :: rest, targetPos, startTarget, total, srcOff, tgtOff, ret =>
    if htp : targetPos < rule.tgtPos2srcInd.length then
      match hsub : subs[rule.tgtPos2srcInd.get ⟨targetPos, htp⟩]? with
      | none => Except.error ()
      | some sub =>
        match oanb sub (startTarget + total) ret with
        | Except.error e => Except.error e
        | Except.ok (ret2, targetSize) =>
          oanbLoop rule subs rest (targetPos + 1) startTarget (total + targetSize)
            (srcOff.set (rule.srcInd2pos.getD (rule.tgtPos2srcInd.get ⟨targetPos, htp⟩) 0)
              sub.headWords)
            (tgtOff.set targetPos targetSize) ret2
    else Except.error ()
termination_by rule subs ws tp st total srcOff tgtOff ret => (sizeOf subs, ws.length + 1)
decreasing_by
  · apply Prod.Lex.right
    simp only [List.length_cons]
    omega
  · apply Prod.Lex.left
    exact List.sizeOf_lt_of_mem (List.getElem?_mem hsub)
  · apply Prod.Lex.right
    simp only [List.length_cons]
    omega

end

mutual

/-- Reference version of OutputAlignmentNBest returning the sequence of
absolute alignment points in insertion order instead of threading the
point set: it errors exactly on the consistency checks, never on
collisions. -/
def oanbRef : DTree → Nat → Except Unit (List (Nat × Nat) × Nat)
  | DTree.node rule hs hw tw subs, startTarget =>
    if rule.srcInd2pos.length ≠ subs.length then Except.error ()
    else
      match oanbRefLoop rule subs rule.twords 0 startTarget 0
          (List.replicate (calcSourceSize hw tw) 0)
          (List.replicate rule.twords.length 0) with
      | Except.error e => Except.error e
      | Except.ok (pts, total, srcOff, tgtOff) =>
        Except.ok (pts ++ rule.alignTerm.map fun pr =>
            ((shiftOffsets hs srcOff).getD pr.1 0,
             (shiftOffsets startTarget tgtOff).getD pr.2 0), total)
termination_by d st => (sizeOf d, 0)
decreasing_by
  apply Prod.Lex.left
  simp only [DTree.node.sizeOf_spec]
  omega

/-- Reference version of the target-position loop, collecting the points
of the visited sub-derivations in order. -/
def oanbRefLoop : Rule → List DTree → List TWord → Nat → Nat → Nat →
    List Nat → List Nat →
    Except Unit (List (Nat × Nat) × Nat × List Nat × List Nat)
  | _, _, [], _, _, total, srcOff, tgtOff =>
    Except.ok ([], total, srcOff, tgtOff)
  | rule, subs, TWord.term _ :: rest, targetPos, startTarget, total, srcOff, tgtOff =>
    oanbRefLoop rule subs rest (targetPos + 1) startTarget (total + 1) srcOff tgtOff
  | rule, subs, TWord.nonterm :: rest, targetPos, startTarget, total, srcOff, tgtOff =>
    if htp : targetPos < rule.tgtPos2srcInd.length then
      match hsub : subs[rule.tgtPos2srcInd.get ⟨targetPos, htp⟩]? with
      | none => Except.error ()
      | some sub =>
        match oanbRef sub (startTarget + total) with
        | Except.error e => Except.error e
        | Except.ok (ptsSub, targetSize) =>
          match oanbRefLoop rule subs rest (targetPos + 1) startTarget
              (total + targetSize)
              (srcOff.set
                (rule.srcInd2pos.getD (rule.tgtPos2srcInd.get ⟨targetPos, htp⟩) 0)
                sub.headWords)
              (tgtOff.set targetPos targetSize) with
          | Except.error e => Except.error e
          | Except.ok (ptsRest, total2, so2, to2) =>
            Except.ok (ptsSub ++ ptsRest, total2, so2, to2)
    else Except.error ()
termination_by rule subs ws tp st total srcOff tgtOff => (sizeOf subs, ws.length + 1)
decreasing_by
  · apply Prod.Lex.right
    simp only [List.length_cons]
    omega
  · apply Prod.Lex.left
    exact List.sizeOf_lt_of_mem (List.getElem?_mem hsub)
  · apply Prod.Lex.right
    simp only [List.length_cons]
    omega

end

mutual

/-- The consistency condition checked by OutputAlignmentNBest along the
visited structure: at every visited node the rule's source-index map has
exactly as many entries as there are sub-derivations, every visited
non-terminal target position lies inside the non-terminal index map, and
the selected sub-derivation index is in range. -/
def ntOkB : DTree → Bool
  | DTree.node rule _ _ _ subs =>
    (rule.srcInd2pos.length == subs.length) && ntOkLoopB rule subs rule.twords 0
termination_by d => (sizeOf d, 0)
decreasing_by
  apply Prod.Lex.left
  simp only [DTree.node.sizeOf_spec]
  omega

/-- The per-target-position part of the consistency condition. -/
def ntOkLoopB : Rule → List DTree → List TWord → Nat → Bool
  | _, _, [], _ => true
  | rule, subs, TWord.term _ :: rest, targetPos =>
    ntOkLoopB rule subs rest (targetPos + 1)
  | rule, subs, TWord.nonterm :: rest, targetPos =>
    if htp : targetPos < rule.tgtPos2srcInd.length then
      match hsub : subs[rule.tgtPos2srcInd.get ⟨targetPos, htp⟩]? with
      | none => false
      | some sub => ntOkB sub && ntOkLoopB rule subs rest (targetPos + 1)
    else false
termination_by rule subs ws tp => (sizeOf subs, ws.length + 1)
decreasing_by
  · apply Prod.Lex.right
    simp only [List.length_cons]
    omega
  · apply Prod.Lex.left
    exact List.sizeOf_lt_of_mem (List.getElem?_mem hsub)
  · apply Prod.Lex.right
    simp only [List.length_cons]
    omega

end

mutual

/-- The total target length of a derivation: one position per terminal
target word, plus the total target length of the sub-derivation selected
at each non-terminal target position. -/
def tgtYield : DTree → Nat
  | DTree.node rule _ _ _ subs => tgtYieldLoop rule subs rule.twords 0
termination_by d => (sizeOf d, 0)
decreasing_by
  apply Prod.Lex.left
  simp only [DTree.node.sizeOf_spec]
  omega

/-- The target length contributed by a suffix of the rule's target
words. -/
def tgtYieldLoop : Rule → List DTree → List TWord → Nat → Nat
  | _, _, [], _ => 0
  | rule, subs, TWord.term _ :: rest, targetPos =>
    1 + tgtYieldLoop rule subs rest (targetPos + 1)
  | rule, subs, TWord.nonterm :: rest, targetPos =>
    (if htp : targetPos < rule.tgtPos2srcInd.length then
      match hsub : subs[rule.tgtPos2srcInd.get ⟨targetPos, htp⟩]? with
      | none => 0
      | some sub => tgtYield sub
    else 0) + tgtYieldLoop rule subs rest (targetPos + 1)
termination_by rule subs ws tp => (sizeOf subs, ws.length + 1)
decreasing_by
  · apply Prod.Lex.right
    simp only [List.length_cons]
    omega
  · apply Prod.Lex.left
    exact List.sizeOf_lt_of_mem (List.getElem?_mem hsub)
  · apply Prod.Lex.right
    simp only [List.length_cons]
    omega

end

lemma insertPoints_append (a b : List (Nat × Nat)) (s : Finset (Nat × Nat)) :
    insertPoints (a ++ b) s =
      match insertPoints a s with
      | Except.error e => Except.error e
      | Except.ok s2 => insertPoints b s2 := by
  induction a generalizing s with
  | nil => simp [insertPoints]
  | cons p rest ih =>
    simp only [List.cons_append, insertPoints]
    by_cases hp : p ∈ s
    · simp [hp]
    · simp [hp, ih]

/-- The simulation statement relating the set-threading
OutputAlignmentNBest to its point-sequence reference version at one
derivation: the set-threading run is determined by the reference point
sequence, with collisions surfacing exactly as insertion failures of that
sequence. -/
def SimD (d : DTree) : Prop :=
  ∀ (st : Nat) (ret : Finset (Nat × Nat)),
    oanb d st ret =
      match oanbRef d st with
      | Except.error e => Except.error e
      | Except.ok (pts, n) => (insertPoints pts ret).map fun s => (s, n)

lemma simLoop (rule : Rule) (subs : List DTree)
    (IH : ∀ sub ∈ subs, SimD sub) :
    ∀ (ws : List TWord) (tp st total : Nat) (srcOff tgtOff : List Nat)
      (ret : Finset (Nat × Nat)),
    oanbLoop rule subs ws tp st total srcOff tgtOff ret =
      match oanbRefLoop rule subs ws tp st total srcOff tgtOff with
      | Except.error e => Except.error e
      | Except.ok (pts, t2, so2, to2) =>
          (insertPoints pts ret).map fun s => (t2, so2, to2, s) := by
  intro ws
  induction ws with
  | nil =>
    intro tp st total srcOff tgtOff ret
    simp [oanbLoop, oanbRefLoop, insertPoints, Except.map]
  | cons w rest ihw =>
    intro tp st total srcOff tgtOff ret
    cases w with
    | term wd =>
      simp only [oanbLoop, oanbRefLoop]
      exact ihw (tp + 1) st (total + 1) srcOff tgtOff ret
    | nonterm =>
      by_cases htp : tp < rule.tgtPos2srcInd.length
      · simp only [oanbLoop, oanbRefLoop, dif_pos htp]
        cases hsub : subs[rule.tgtPos2srcInd.get ⟨tp, htp⟩]? with
        | none => simp [hsub]
        | some sub =>
          simp only [hsub]
          rw [IH sub (List.getElem?_mem hsub) (st + total) ret]
          cases href : oanbRef sub (st + total) with
          | error e =>
            cases e
            simp [href]
          | ok pr =>
            obtain ⟨ptsSub, tsz⟩ := pr
            simp only [href]
            cases hip : insertPoints ptsSub ret with
            | error e2 =>
              cases e2
              simp only [hip, Except.map]
              cases hrest : oanbRefLoop rule subs rest (tp + 1) st (total + tsz)
                  (srcOff.set
                    (rule.srcInd2pos.getD (rule.tgtPos2srcInd.get ⟨tp, htp⟩) 0)
                    sub.headWords)
                  (tgtOff.set tp tsz) with
              | error e3 =>
                cases e3
                simp [hrest]
              | ok quad =>
                obtain ⟨ptsRest, t2, so2r, to2r⟩ := quad
                simp only [hrest]
                rw [insertPoints_append, hip]
            | ok s1 =>
              simp only [hip, Except.map]
              rw [ihw (tp + 1) st (total + tsz)
                (srcOff.set
                  (rule.srcInd2pos.getD (rule.tgtPos2srcInd.get ⟨tp, htp⟩) 0)
                  sub.headWords)
                (tgtOff.set tp tsz) s1]
              cases hrest : oanbRefLoop rule subs rest (tp + 1) st (total + tsz)
                  (srcOff.set
                    (rule.srcInd2pos.getD (rule.tgtPos2srcInd.get ⟨tp, htp⟩) 0)
                    sub.headWords)
                  (tgtOff.set tp tsz) with
              | error e3 =>
                cases e3
                simp [hrest]
              | ok quad =>
                obtain ⟨ptsRest, t2, so2r, to2r⟩ := quad
                simp only [hrest]
                rw [insertPoints_append, hip]
                cases hfin : insertPoints ptsRest s1 with
                | error e4 => simp [hfin, Except.map]
                | ok s4 => simp [hfin, Except.map]
      · simp only [oanbLoop, oanbRefLoop, dif_neg htp]

lemma simD_all : ∀ (d : DTree), SimD d
  | DTree.node rule hs hw tw subs => by
    have IH : ∀ sub ∈ subs, SimD sub := fun sub hsub => simD_all sub
    intro st ret
    by_cases hlen : rule.srcInd2pos.length ≠ subs.length
    · simp only [oanb, oanbRef, if_pos hlen]
    · simp only [oanb, oanbRef, if_neg hlen]
      rw [simLoop rule subs IH rule.twords 0 st 0
        (List.replicate (calcSourceSize hw tw) 0)
        (List.replicate rule.twords.length 0) ret]
      cases hloop : oanbRefLoop rule subs rule.twords 0 st 0
          (List.replicate (calcSourceSize hw tw) 0)
          (List.replicate rule.twords.length 0) with
      | error e =>
        cases e
        simp [hloop]
      | ok quad =>
        obtain ⟨pts0, total0, so0, to0⟩ := quad
        simp only [hloop]
        cases hip : insertPoints pts0 ret with
        | error e2 =>
          cases e2
          simp only [hip, Except.map]
          rw [insertPoints_append, hip]
        | ok s2 =>
          simp only [hip, Except.map]
          rw [insertPoints_append, hip]
          cases hterm : insertPoints (rule.alignTerm.map fun pr =>
              ((shiftOffsets hs so0)[pr.1]?.getD 0,
               (shiftOffsets st to0)[pr.2]?.getD 0)) s2 with
          | error e3 =>
            cases e3
            simp [hterm]
          | ok s3 =>
            simp [hterm, Except.map]
termination_by d => sizeOf d
decreasing_by
  simp only [DTree.node.sizeOf_spec]
  have hs := List.sizeOf_lt_of_mem hsub
  omega

lemma ntOkLoop_iff (rule : Rule) (subs : List DTree)
    (IH : ∀ sub ∈ subs, ∀ st : Nat,
      (∃ pl, oanbRef sub st = Except.ok pl) ↔ ntOkB sub = true) :
    ∀ (ws : List TWord) (tp st total : Nat) (srcOff tgtOff : List Nat),
    (∃ q, oanbRefLoop rule subs ws tp st total srcOff tgtOff = Except.ok q) ↔
      ntOkLoopB rule subs ws tp = true := by
  intro ws
  induction ws with
  | nil =>
    intro tp st total srcOff tgtOff
    simp [oanbRefLoop, ntOkLoopB]
  | cons w rest ihw =>
    intro tp st total srcOff tgtOff
    cases w with
    | term wd =>
      simp only [oanbRefLoop, ntOkLoopB]
      exact ihw (tp + 1) st (total + 1) srcOff tgtOff
    | nonterm =>
      by_cases htp : tp < rule.tgtPos2srcInd.length
      · simp only [oanbRefLoop, ntOkLoopB, dif_pos htp]
        cases hsub : subs[rule.tgtPos2srcInd.get ⟨tp, htp⟩]? with
        | none => simp [hsub]
        | some sub =>
          simp only [hsub]
          constructor
          · rintro ⟨q, hq⟩
            cases href : oanbRef sub (st + total) with
            | error e =>
              rw [href] at hq
              cases hq
            | ok pr =>
              obtain ⟨ptsSub, tsz⟩ := pr
              rw [href] at hq
              simp only [] at hq
              have hsubok : ntOkB sub = true :=
                (IH sub (List.getElem?_mem hsub) (st + total)).mp ⟨_, href⟩
              cases hrest : oanbRefLoop rule subs rest (tp + 1) st (total + tsz)
                  (srcOff.set
                    (rule.srcInd2pos.getD (rule.tgtPos2srcInd.get ⟨tp, htp⟩) 0)
                    sub.headWords)
                  (tgtOff.set tp tsz) with
              | error e2 =>
                rw [hrest] at hq
                cases hq
              | ok q2 =>
                have hrestok : ntOkLoopB rule subs rest (tp + 1) = true :=
                  (ihw (tp + 1) st (total + tsz) _ _).mp ⟨q2, hrest⟩
                simp [hsubok, hrestok]
          · intro hok
            simp only [Bool.and_eq_true] at hok
            obtain ⟨hsubok, hrestok⟩ := hok
            obtain ⟨⟨ptsSub, tsz⟩, href⟩ :=
              (IH sub (List.getElem?_mem hsub) (st + total)).mpr hsubok
            obtain ⟨q2, hrest⟩ := (ihw (tp + 1) st (total + tsz)
              (srcOff.set
                (rule.srcInd2pos.getD (rule.tgtPos2srcInd.get ⟨tp, htp⟩) 0)
                sub.headWords)
              (tgtOff.set tp tsz)).mpr hrestok
            obtain ⟨ptsRest, tr, sor, tor⟩ := q2
            refine ⟨(ptsSub ++ ptsRest, tr, sor, tor), ?_⟩
            simp only [href]
            rw [hrest]
      · simp only [oanbRefLoop, ntOkLoopB, dif_neg htp]
        simp

lemma oanbRef_ok_iff : ∀ (d : DTree) (st : Nat),
    (∃ pl, oanbRef d st = Except.ok pl) ↔ ntOkB d = true
  | DTree.node rule hs hw tw subs => by
    have IH : ∀ sub ∈ subs, ∀ st : Nat,
        (∃ pl, oanbRef sub st = Except.ok pl) ↔ ntOkB sub = true :=
      fun sub hsub => oanbRef_ok_iff sub
    intro st
    by_cases hlen : rule.srcInd2pos.length ≠ subs.length
    · simp only [oanbRef, if_pos hlen, ntOkB]
      simp only [ne_eq] at hlen
      simp [hlen]
    · simp only [oanbRef, if_neg hlen, ntOkB]
      simp only [ne_eq, not_not] at hlen
      have hloopiff := ntOkLoop_iff rule subs IH rule.twords 0 st 0
        (List.replicate (calcSourceSize hw tw) 0)
        (List.replicate rule.twords.length 0)
      cases hloop : oanbRefLoop rule subs rule.twords 0 st 0
          (List.replicate (calcSourceSize hw tw) 0)
          (List.replicate rule.twords.length 0) with
      | error e =>
        rw [hloop] at hloopiff
        have hnl : ntOkLoopB rule subs rule.twords 0 = false := by
          cases hnl2 : ntOkLoopB rule subs rule.twords 0 with
          | false => rfl
          | true =>
            obtain ⟨q, hq⟩ := hloopiff.mpr hnl2
            cases hq
        simp [hnl]
      | ok quad =>
        obtain ⟨pts0, total0, so0, to0⟩ := quad
        rw [hloop] at hloopiff
        have hnl : ntOkLoopB rule subs rule.twords 0 = true :=
          hloopiff.mp ⟨_, rfl⟩
        simp [hnl, hlen]
termination_by d => sizeOf d
decreasing_by
  simp only [DTree.node.sizeOf_spec]
  have hs := List.sizeOf_lt_of_mem hsub
  omega

lemma refLoop_total (rule : Rule) (subs : List DTree)
    (IH : ∀ sub ∈ subs, ∀ (st : Nat) (pts : List (Nat × Nat)) (n : Nat),
      oanbRef sub st = Except.ok (pts, n) → n = tgtYield sub) :
    ∀ (ws : List TWord) (tp st total : Nat) (srcOff tgtOff : List Nat)
      (pts : List (Nat × Nat)) (t2 : Nat) (so2 to2 : List Nat),
      oanbRefLoop rule subs ws tp st total srcOff tgtOff
        = Except.ok (pts, t2, so2, to2) →
      t2 = total + tgtYieldLoop rule subs ws tp := by
  intro ws
  induction ws with
  | nil =>
    intro tp st total srcOff tgtOff pts t2 so2 to2 h
    simp only [oanbRefLoop, Except.ok.injEq, Prod.mk.injEq] at h
    simp only [tgtYieldLoop]
    omega
  | cons w rest ihw =>
    intro tp st total srcOff tgtOff pts t2 so2 to2 h
    cases w with
    | term wd =>
      simp only [oanbRefLoop] at h
      simp only [tgtYieldLoop]
      have := ihw (tp + 1) st (total + 1) srcOff tgtOff pts t2 so2 to2 h
      omega
    | nonterm =>
      by_cases htp : tp < rule.tgtPos2srcInd.length
      · simp only [oanbRefLoop, dif_pos htp] at h
        cases hsub : subs[rule.tgtPos2srcInd.get ⟨tp, htp⟩]? with
        | none =>
          rw [hsub] at h
          cases h
        | some sub =>
          rw [hsub] at h
          simp only [] at h
          cases href : oanbRef sub (st + total) with
          | error e =>
            rw [href] at h
            simp only [] at h
            cases h
          | ok pr =>
            obtain ⟨ptsSub, tsz⟩ := pr
            rw [href] at h
            simp only [] at h
            cases hrest : oanbRefLoop rule subs rest (tp + 1) st (total + tsz)
                (srcOff.set
                  (rule.srcInd2pos.getD (rule.tgtPos2srcInd.get ⟨tp, htp⟩) 0)
                  sub.headWords)
                (tgtOff.set tp tsz) with
            | error e2 =>
              rw [hrest] at h
              cases h
            | ok q2 =>
              obtain ⟨ptsRest, tr, sor, tor⟩ := q2
              rw [hrest] at h
              simp only [Except.ok.injEq, Prod.mk.injEq] at h
              obtain ⟨-, ht2, -, -⟩ := h
              have hts : tsz = tgtYield sub :=
                IH sub (List.getElem?_mem hsub) (st + total) ptsSub tsz href
              have hrec := ihw (tp + 1) st (total + tsz) _ _ ptsRest tr sor tor hrest
              have hyl : tgtYieldLoop rule subs (TWord.nonterm :: rest) tp
                  = tgtYield sub + tgtYieldLoop rule subs rest (tp + 1) := by
                simp only [tgtYieldLoop, dif_pos htp]
                rw [hsub]
              rw [hyl]
              omega
      · simp only [oanbRefLoop, dif_neg htp] at h
        cases h

lemma oanbRef_total : ∀ (d : DTree) (st : Nat) (pts : List (Nat × Nat)) (n : Nat),
    oanbRef d st = Except.ok (pts, n) → n = tgtYield d
  | DTree.node rule hs hw tw subs => by
    have IH : ∀ sub ∈ subs, ∀ (st : Nat) (pts : List (Nat × Nat)) (n : Nat),
        oanbRef sub st = Except.ok (pts, n) → n = tgtYield sub :=
      fun sub hsub => oanbRef_total sub
    intro st pts n h
    by_cases hlen : rule.srcInd2pos.length ≠ subs.length
    · simp only [oanbRef, if_pos hlen] at h
      cases h
    · simp only [oanbRef, if_neg hlen] at h
      cases hloop : oanbRefLoop rule subs rule.twords 0 st 0
          (List.replicate (calcSourceSize hw tw) 0)
          (List.replicate rule.twords.length 0) with
      | error e =>
        rw [hloop] at h
        cases h
      | ok quad =>
        obtain ⟨pts0, total0, so0, to0⟩ := quad
        rw [hloop] at h
        simp only [Except.ok.injEq, Prod.mk.injEq] at h
        obtain ⟨-, hn⟩ := h
        have htot := refLoop_total rule subs IH rule.twords 0 st 0
          (List.replicate (calcSourceSize hw tw) 0)
          (List.replicate rule.twords.length 0) pts0 total0 so0 to0 hloop
        simp only [tgtYield]
        omega
termination_by d => sizeOf d
decreasing_by
  simp only [DTree.node.sizeOf_spec]
  have hs := List.sizeOf_lt_of_mem hsub
  omega

/-- C8: OutputAlignmentNBest raises a hard internal-consistency error
exactly when a visited rule's non-terminal bookkeeping disagrees with its
supplied sub-derivations (the entry count check, a target position outside
the non-terminal index map, or a missing sub-derivation: ntOkB fails), or
when an alignment point to be inserted collides with an already inserted
point (sequential insertion of the reference point sequence fails);
otherwise it completes and returns the derivation's total target
length. -/
theorem oanb_error_iff (d : DTree) (st : Nat) (ret : Finset (Nat × Nat)) :
    (oanb d st ret = Except.error () ↔
      (ntOkB d = false ∨
       ∃ pts n, oanbRef d st = Except.ok (pts, n) ∧
         insertPoints pts ret = Except.error ())) ∧
    (∀ s n, oanb d st ret = Except.ok (s, n) → n = tgtYield d) := by
  have hsim := simD_all d st ret
  constructor
  · constructor
    · intro herr
      cases href : oanbRef d st with
      | error e =>
        cases e
        left
        cases hok : ntOkB d with
        | false => rfl
        | true =>
          obtain ⟨pl, hpl⟩ := (oanbRef_ok_iff d st).mpr hok
          rw [href] at hpl
          cases hpl
      | ok pr =>
        obtain ⟨pts, n⟩ := pr
        right
        rw [href] at hsim
        rw [hsim] at herr
        simp only [] at herr
        cases hip : insertPoints pts ret with
        | error e2 =>
          cases e2
          exact ⟨pts, n, rfl, hip⟩
        | ok s2 =>
          rw [hip] at herr
          simp [Except.map] at herr
    · intro hdisj
      rcases hdisj with hnt | ⟨pts, n, href, hip⟩
      · cases href : oanbRef d st with
        | error e =>
          cases e
          rw [href] at hsim
          exact hsim
        | ok pr =>
          have hok := (oanbRef_ok_iff d st).mp ⟨pr, href⟩
          rw [hok] at hnt
          cases hnt
      · rw [href] at hsim
        simp only [] at hsim
        rw [hip] at hsim
        simpa [Except.map] using hsim
  · intro s n hok
    cases href : oanbRef d st with
    | error e =>
      cases e
      rw [href] at hsim
      rw [hsim] at hok
      cases hok
    | ok pr =>
      obtain ⟨pts, n0⟩ := pr
      rw [href] at hsim
      simp only [] at hsim
      rw [hsim] at hok
      cases hip : insertPoints pts ret with
      | error e2 =>
        rw [hip] at hok
        simp [Except.map] at hok
      | ok s2 =>
        rw [hip] at hok
        simp only [Except.map, Except.ok.injEq, Prod.mk.injEq] at hok
        obtain ⟨-, hn⟩ := hok
        rw [← hn]
        exact oanbRef_total d st pts n0 href

/-- A rule with two terminal target words and no non-terminals, used to
instantiate the C8 theorem. -/
def dRule0 : Rule := ⟨[TWord.term 1, TWord.term 2], [], [], []⟩

/-- A one-node derivation over dRule0. -/
def dTree0 : DTree := DTree.node dRule0 0 2 [] []

lemma dTree0_eval : oanb dTree0 0 ∅ = Except.ok (∅, 2) := by
  simp [dTree0, dRule0, oanb, oanbLoop, insertPoints, calcSourceSize]

/-- Witness instantiating the C8 theorem on the concrete derivation
dTree0, whose alignment reconstruction succeeds with target length 2. -/
theorem oanb_error_iff_witness :
    oanb dTree0 0 ∅ = Except.ok (∅, 2) ∧ (2 : Nat) = tgtYield dTree0 :=
  ⟨dTree0_eval, (oanb_error_iff dTree0 0 ∅).2 ∅ 2 dTree0_eval⟩

end MosesT2S
